import Mathlib

/-!
Verification development for the OpenAPI-to-MCP server (`src/index.js`).

JavaScript strings are modelled as `List Char` (`Str`); JavaScript numbers
that the program uses as integers are modelled as `Int`/`Nat`; fallible
steps return `Except`/`Option`.  Each definition is a shallow embedding of
the correspondingly named function in `src/index.js`; platform builtins
(`new URL`, `JSON.parse`, percent-encoding) are modelled explicitly where
the claims depend on them and are parameters otherwise.  Loops of the
source (the `while` loop of `makeUniqueName`, the regex scans) are embedded
with an explicit fuel argument so that every definition evaluates by
kernel reduction; the fuel chosen at the wrapper level is always provably
sufficient.
-/

namespace OpenApiMcp

/-- JavaScript strings, modelled as lists of characters. -/
abbrev Str := List Char

/-- Uppercase a string (`String.prototype.toUpperCase`, ASCII fragment). -/
def upperStr (s : Str) : Str := s.map Char.toUpper

/-- Lowercase a string (`String.prototype.toLowerCase`, ASCII fragment). -/
def lowerStr (s : Str) : Str := s.map Char.toLower

/-- `hay.startsWith(needle)` on character lists. -/
def startsWith : Str → Str → Bool
  | _, [] => true
  | [], _ :: _ => false
  | c :: hay, d :: needle => c = d && startsWith hay needle

/-- `hay.includes(needle)`: substring containment. -/
def containsSub : Str → Str → Bool
  | [], needle => startsWith [] needle
  | c :: hay, needle => startsWith (c :: hay) needle || containsSub hay needle

/-- First value in an association list whose key equals `k` (JS object
property lookup for the string-keyed records the tool inputs carry). -/
def lookupStr (params : List (Str × Str)) (k : Str) : Option Str :=
  match params with
  | [] => none
  | (k', v) :: rest => if k' = k then some v else lookupStr rest k

/-- JavaScript `a || b` for an optional string `a`: the empty string is
falsy, `undefined` is falsy. -/
def jsOrStr (a : Option Str) (b : Str) : Str :=
  match a with
  | some s => if s = [] then b else s
  | none => b

/-! ### Decimal rendering of numbers (template literals `${i}`) -/

/-- The character of a decimal digit (`m < 10`). -/
def digitChar (m : Nat) : Char :=
  match m with
  | 0 => '0' | 1 => '1' | 2 => '2' | 3 => '3' | 4 => '4'
  | 5 => '5' | 6 => '6' | 7 => '7' | 8 => '8' | _ => '9'

/-- Decimal digits of `n`, most significant first; structural fuel
recursion (`fuel ≥ n` suffices, the wrapper passes `n + 1`). -/
def natDecGo : Nat → Nat → Str
  | _, 0 => ['0']
  | 0, _ => []
  | fuel + 1, n =>
    if n < 10 then [digitChar n]
    else natDecGo fuel (n / 10) ++ [digitChar (n % 10)]

/-- Decimal rendering of a natural number, as a template literal does. -/
def natDec (n : Nat) : Str := natDecGo (n + 1) n

/-- Decimal rendering of an integer. -/
def intDec (n : Int) : Str :=
  if n < 0 then '-' :: natDec (-n).toNat else natDec n.toNat

/-- Numeric value of a decimal digit string (proof-side inverse of
`natDec`). -/
def decVal (s : Str) : Nat :=
  s.foldl (fun a c => 10 * a + (c.toNat - 48)) 0

/-! ### C2: effective timeout -/

/-- Line 295 of `src/index.js`:
`Math.min(Math.max(timeoutMs || 30000, 1), 300000)`.  `timeoutMs` is
`undefined` (modelled `none`) when absent; `timeoutMs || 30000` treats the
number `0` as falsy. -/
def effectiveTimeoutMs (t : Option Int) : Int :=
  min (max (match t with
            | none => 30000
            | some v => if v = 0 then 30000 else v) 1) 300000

/-! ### C8: URL joining -/

/-- `joinUrl` of `src/index.js` (lines 57-65): join a base URL and a path,
branching on a trailing slash of the base and a leading slash of the
path. -/
def joinUrl (base path : Str) : Str :=
  if base = [] then path
  else if path = [] then base
  else if base.getLast? = some '/' then
    if path.head? = some '/' then base ++ path.tail
    else base ++ path
  else
    if path.head? = some '/' then base ++ path
    else base ++ '/' :: path

/-- The leading run of slashes of `s`, counted. -/
def countLead (s : Str) : Nat := (s.takeWhile (fun c => c = '/')).length

/-- `s` without its leading slashes. -/
def stripLead (s : Str) : Str := s.dropWhile (fun c => c = '/')

/-- `s` without its trailing slashes. -/
def stripTrail (s : Str) : Str := (stripLead s.reverse).reverse

/-! ### Regex token scan `\x7b([^\x7d]+)\x7d` -/

/-- Split `l` at its first `'\x7d'` (closing brace): the characters before
it and the remainder after it; `none` when `l` has no closing brace. -/
def splitAtRBrace : Str → Option (Str × Str)
  | [] => none
  | c :: rest =>
    if c = '\x7d' then some ([], rest)
    else
      match splitAtRBrace rest with
      | some (a, b) => some (c :: a, b)
      | none => none

/-- `rawPath.replace` with the token regex and replacement `"$1"`
(line 196 of `src/index.js`): strip the braces around every path-template
token.  Fuel-structural; the wrapper passes the string length, which is
sufficient because each step consumes at least one character. -/
def stripBracesGo : Nat → Str → Str
  | 0, l => l
  | _ + 1, [] => []
  | fuel + 1, c :: rest =>
    if c = '\x7b' then
      match splitAtRBrace rest with
      | some ([], rest') => c :: '\x7d' :: stripBracesGo fuel rest'
      | some (tok, rest') => tok ++ stripBracesGo fuel rest'
      | none => c :: rest
    else c :: stripBracesGo fuel rest

/-- Brace stripping at adequate fuel. -/
def stripBraces (s : Str) : Str := stripBracesGo s.length s

/-! ### `slugify` (lines 46-52) -/

/-- Is `c` in `[a-z0-9]`? -/
def isLowerAlnum (c : Char) : Bool :=
  ('a' ≤ c && c ≤ 'z') || ('0' ≤ c && c ≤ '9')

/-- Replace every maximal run of characters outside `[a-z0-9]` by a single
`'-'` (the `replace(/[^a-z0-9]+/g, "-")` step).  Fuel-structural. -/
def collapseGo : Nat → Str → Str
  | 0, l => l
  | _ + 1, [] => []
  | fuel + 1, c :: rest =>
    if isLowerAlnum c then c :: collapseGo fuel rest
    else '-' :: collapseGo fuel (rest.dropWhile (fun d => !isLowerAlnum d))

/-- `slugify` of `src/index.js`: lowercase, collapse non-alphanumeric runs
to `'-'`, trim leading and trailing `'-'`, truncate to 120 characters. -/
def slugify (s : Str) : Str :=
  let low := lowerStr s
  let collapsed := collapseGo low.length low
  let trimmed :=
    ((collapsed.dropWhile (fun c => c = '-')).reverse.dropWhile
      (fun c => c = '-')).reverse
  trimmed.take 120

/-! ### C4: `makeUniqueName` (lines 144-152) -/

/-- The candidate name of the collision loop: the template literal
`${base}-${i}`. -/
def candName (base : Str) (i : Nat) : Str := base ++ '-' :: natDec i

/-- The `while (used.has(name))` loop of `makeUniqueName`, embedded with
fuel; starting index `i`, returns the first candidate not in `used`.
`makeUniqueName` passes fuel `used.length + 1`, provably sufficient
(`findFree_spec`). -/
def findFree (base : Str) (used : List Str) : Nat → Nat → Str
  | i, 0 => candName base i
  | i, fuel + 1 =>
    if candName base i ∈ used then findFree base used (i + 1) fuel
    else candName base i

/-- `makeUniqueName`: the proposed name unchanged when unseen, otherwise
`base-2`, `base-3`, ... until an unused name is found.  The `used.add`
side effect is threaded explicitly by callers (`allocList`). -/
def makeUniqueName (base : Str) (used : List Str) : Str :=
  if base ∈ used then findFree base used 2 (used.length + 1) else base

/-- Allocate final names for a list of proposed base names in order,
threading the `used` set as the registration loop does; returns the
issued names and the final `used` set. -/
def allocList (used : List Str) : List Str → List Str × List Str
  | [] => ([], used)
  | p :: ps =>
    (makeUniqueName p used :: (allocList (makeUniqueName p used :: used) ps).1,
     (allocList (makeUniqueName p used :: used) ps).2)

/-! ### C1: the operation walk and the compile order -/

/-- One declared operation; only the `operationId` participates in name
derivation. -/
structure OperationDecl where
  operationId : Option Str

/-- One successfully fetched document as the compilation loop sees it:
its derived key and its `paths` entries in declaration order, each path
carrying its method-to-operation object. -/
structure FetchedSpec where
  key : Str
  paths : List (Str × List (Str × OperationDecl))

/-- The fixed, ordered method list of `src/index.js` (lines 32-41). -/
def METHODS : List Str :=
  ["get".toList, "put".toList, "post".toList, "delete".toList,
   "options".toList, "head".toList, "patch".toList, "trace".toList]

/-- `pathItem[method]` lookup. -/
def lookupOp (item : List (Str × OperationDecl)) (m : Str) : Option OperationDecl :=
  match item with
  | [] => none
  | (k, op) :: rest => if k = m then some op else lookupOp rest m

/-- The proposed base name of one operation (lines 194-197): when a truthy
`operationId` slugifies to a nonempty slug, `{specKey}.{opId}`; otherwise
`{specKey}.{METHOD}.{pathSlug or root}`. -/
def proposeName (specKey rawPath m : Str) (op : OperationDecl) : Str :=
  let opId : Option Str :=
    match op.operationId with
    | some oid => if oid = [] then none else some (slugify oid)
    | none => none
  let methodSlug := upperStr m
  let pathSlug := slugify (stripBraces rawPath)
  let fallback :=
    specKey ++ '.' :: methodSlug ++ '.' ::
      (if pathSlug = [] then "root".toList else pathSlug)
  match opId with
  | some oid => if oid = [] then fallback else specKey ++ '.' :: oid
  | none => fallback

/-- All proposed base names of one document, in the order the nested loops
of lines 187-198 visit them (paths in declaration order, methods in the
fixed `METHODS` order). -/
def proposalsOfDoc (d : FetchedSpec) : List Str :=
  d.paths.flatMap (fun pi =>
    METHODS.filterMap (fun m =>
      (lookupOp pi.2 m).map (fun op => proposeName d.key pi.1 m op)))

/-- Names issued per document when the fetched-spec list is processed in
the given order.  In the code the order is the `specs.push` order of the
concurrent fetch callbacks (lines 165-176), i.e. fetch-completion order,
which the `for ... of specs` loop of line 181 then follows. -/
def compileDocs (used : List Str) : List FetchedSpec → List (List Str)
  | [] => []
  | d :: ds =>
    (allocList used (proposalsOfDoc d)).1 ::
      compileDocs (allocList used (proposalsOfDoc d)).2 ds

/-- Compilation starting from an empty `used` set. -/
def compilePerDoc (docs : List FetchedSpec) : List (List Str) :=
  compileDocs [] docs

/-- The candidates the collision loop can examine in `fuel` steps from
index `i` (proof-side notion for `findFree`). -/
def candWindow (base : Str) (i fuel : Nat) : List Str :=
  (List.range fuel).map (fun k => candName base (i + k))

/-! ### Percent-encoding (`encodeURIComponent`) -/

/-- The characters `encodeURIComponent` leaves unencoded. -/
def isUnreservedURI (c : Char) : Bool :=
  c.isAlpha || c.isDigit || c = '-' || c = '_' || c = '.' || c = '!' ||
    c = '~' || c = '*' || c = '\x27' || c = '(' || c = ')'

/-- Uppercase hexadecimal digit. -/
def hexChar (n : Nat) : Char := ("0123456789ABCDEF".toList).getD n 'F'

/-- One percent-encoded byte `%XX`. -/
def pctByte (b : Nat) : Str := ['%', hexChar (b / 16), hexChar (b % 16)]

/-- UTF-8 bytes of a code point. -/
def utf8BytesOf (n : Nat) : List Nat :=
  if n < 0x80 then [n]
  else if n < 0x800 then [0xC0 + n / 0x40, 0x80 + n % 0x40]
  else if n < 0x10000 then
    [0xE0 + n / 0x1000, 0x80 + (n / 0x40) % 0x40, 0x80 + n % 0x40]
  else
    [0xF0 + n / 0x40000, 0x80 + (n / 0x1000) % 0x40,
     0x80 + (n / 0x40) % 0x40, 0x80 + n % 0x40]

/-- `encodeURIComponent(v)`: unreserved characters kept, all others
percent-encoded as UTF-8 bytes. -/
def encodeURIComponent (s : Str) : Str :=
  s.flatMap (fun c =>
    if isUnreservedURI c then [c] else (utf8BytesOf c.toNat).flatMap pctByte)

/-! ### `fillPathParams` (lines 70-78) and the token list of a template -/

/-- The error message thrown for a missing path parameter (line 73). -/
def missingMsg (tok : Str) : Str :=
  ("Missing required path parameter: ".toList) ++ tok

/-- The property names every plain object inherits from
`Object.prototype`.  The guard of line 72 is `!(name in pathParams)`, and
JavaScript `in` consults the prototype chain, so it is `true` for these
names even when the caller supplied no own entry. -/
def protoKeys : List Str :=
  ["constructor".toList, "hasOwnProperty".toList, "isPrototypeOf".toList,
   "propertyIsEnumerable".toList, "toLocaleString".toList, "toString".toList,
   "valueOf".toList, "__proto__".toList, "__defineGetter__".toList,
   "__defineSetter__".toList, "__lookupGetter__".toList, "__lookupSetter__".toList]

/-- JavaScript `name in params` for a plain string-record (the zod-parsed
`pathParams` is a plain object literal): an own entry or an inherited
`Object.prototype` property. -/
def jsInObj (params : List (Str × Str)) (name : Str) : Bool :=
  (lookupStr params name).isSome || decide (name ∈ protoKeys)

/-- `String(Object.prototype[name])` as Node/V8 renders it: the
`__proto__` accessor reads the prototype object itself, `constructor`
reads the `Object` function, and the rest are native methods (the exact
native-function text is host-specific; the claims depend only on the
substitution happening, not on this text). -/
def protoValStr (name : Str) : Str :=
  if name = "__proto__".toList then "[object Object]".toList
  else if name = "constructor".toList then
    "function Object() \x7b [native code] \x7d".toList
  else "function ".toList ++ name ++ "() \x7b [native code] \x7d".toList

/-- `String(pathParams[name])` for a `name` that is `in pathParams`
(line 75): the own entry's value when present, else the inherited
member's string form. -/
def jsPathValStr (params : List (Str × Str)) (name : Str) : Str :=
  match lookupStr params name with
  | some v => v
  | none => protoValStr name

/-- The regex-replace scan of `fillPathParams`: find each
`\x7b([^\x7d]+)\x7d` token left to right, substitute
`encodeURIComponent(String(pathParams[name]))`, and throw on the first
token for which `name in pathParams` is false (own entries and inherited
`Object.prototype` names both count as present).  Fuel-structural; the
wrapper passes the string length, sufficient because every step consumes
at least one character. -/
def fillGo (ps : List (Str × Str)) : Nat → Str → Except Str Str
  | 0, l => .ok l
  | _ + 1, [] => .ok []
  | fuel + 1, c :: rest =>
    if c = '\x7b' then
      match splitAtRBrace rest with
      | some (tok, rest') =>
        if tok = [] then
          match fillGo ps fuel rest' with
          | .ok out => .ok (c :: '\x7d' :: out)
          | .error e => .error e
        else
          if jsInObj ps tok then
            match fillGo ps fuel rest' with
            | .ok out => .ok (encodeURIComponent (jsPathValStr ps tok) ++ out)
            | .error e => .error e
          else .error (missingMsg tok)
      | none => .ok (c :: rest)
    else
      match fillGo ps fuel rest with
      | .ok out => .ok (c :: out)
      | .error e => .error e

/-- `fillPathParams` of `src/index.js`. -/
def fillPathParams (ps : List (Str × Str)) (path : Str) : Except Str Str :=
  fillGo ps path.length path

/-- The token names the regex `\x7b([^\x7d]+)\x7d` matches in a template,
in scan order. -/
def tokensGo : Nat → Str → List Str
  | 0, _ => []
  | _ + 1, [] => []
  | fuel + 1, c :: rest =>
    if c = '\x7b' then
      match splitAtRBrace rest with
      | some (tok, rest') =>
        if tok = [] then tokensGo fuel rest' else tok :: tokensGo fuel rest'
      | none => []
    else tokensGo fuel rest

/-- The tokens of a path template. -/
def tokensOf (path : Str) : List Str := tokensGo path.length path

/-! ### JavaScript values for `query` and `body` -/

/-- The JavaScript values the generic tool input can carry. -/
inductive JsVal where
  | vUndef
  | vNull
  | vBool (b : Bool)
  | vNum (n : Int)
  | vStr (s : Str)
  | vArr (elems : List JsVal)
  | vObj (fields : List (Str × JsVal))

/-- `Array.prototype.join` with a one-character separator. -/
def joinSep (sep : Char) : List Str → Str
  | [] => []
  | [x] => x
  | x :: xs => x ++ sep :: joinSep sep xs

/-- JavaScript `String(v)`: strings pass through, scalars render, arrays
join their elements with `','` (null/undefined elements render empty),
plain objects render `[object Object]`. -/
def jsStringOf : JsVal → Str
  | .vUndef => "undefined".toList
  | .vNull => "null".toList
  | .vBool b => if b then "true".toList else "false".toList
  | .vNum n => intDec n
  | .vStr s => s
  | .vObj _ => "[object Object]".toList
  | .vArr xs =>
    joinSep ',' (xs.attach.map (fun t =>
      match t with
      | ⟨.vUndef, _⟩ => []
      | ⟨.vNull, _⟩ => []
      | ⟨v, _⟩ => jsStringOf v))

/-- Lowercase hexadecimal digit. -/
def hexCharLower (n : Nat) : Char := ("0123456789abcdef".toList).getD n 'f'

/-- The JSON escape of one character inside a quoted string. -/
def jsonEscapeChar (c : Char) : Str :=
  if c = '"' then ['\\', '"']
  else if c = '\\' then ['\\', '\\']
  else if c = '\n' then ['\\', 'n']
  else if c = '\r' then ['\\', 'r']
  else if c = '\t' then ['\\', 't']
  else if c.toNat = 8 then ['\\', 'b']
  else if c.toNat = 12 then ['\\', 'f']
  else if c.toNat < 32 then
    ['\\', 'u', '0', '0', hexCharLower (c.toNat / 16), hexCharLower (c.toNat % 16)]
  else [c]

/-- A JSON quoted string. -/
def jsonQuote (s : Str) : Str := '"' :: s.flatMap jsonEscapeChar ++ ['"']

/-- `JSON.stringify(v)`: `none` mirrors JavaScript returning `undefined`,
which among these values only happens for `undefined` itself; array
elements that stringify to `undefined` render `null`; object fields that
stringify to `undefined` are omitted. -/
def jsonStr : JsVal → Option Str
  | .vUndef => none
  | .vNull => some ("null".toList)
  | .vBool b => some (if b then "true".toList else "false".toList)
  | .vNum n => some (intDec n)
  | .vStr s => some (jsonQuote s)
  | .vArr xs =>
    some ('[' :: joinSep ','
      (xs.attach.map (fun t => (jsonStr t.1).getD ("null".toList))) ++ [']'])
  | .vObj fs =>
    some ('\x7b' :: joinSep ','
      (fs.attach.filterMap (fun t =>
        (jsonStr t.1.2).map (fun s => jsonQuote t.1.1 ++ ':' :: s))) ++ ['\x7d'])
termination_by v => sizeOf v
decreasing_by
  · have h := List.sizeOf_lt_of_mem t.2
    simp only [JsVal.vArr.sizeOf_spec]
    omega
  · obtain ⟨⟨k, v⟩, ht⟩ := t
    have h := List.sizeOf_lt_of_mem ht
    simp only [Prod.mk.sizeOf_spec] at h
    simp only [JsVal.vObj.sizeOf_spec]
    omega

/-! ### URLSearchParams model -/

/-- The values under key `k`, in order. -/
def valuesUnder (k : Str) : List (Str × Str) → List Str
  | [] => []
  | (k', v) :: rest => if k' = k then v :: valuesUnder k rest else valuesUnder k rest

/-- Remove every entry under `k`. -/
def removeKey (k : Str) : List (Str × Str) → List (Str × Str)
  | [] => []
  | (k', v) :: rest => if k' = k then removeKey k rest else (k', v) :: removeKey k rest

/-- `URLSearchParams.set`: replace the first entry under `k` in place and
delete the others; append at the end when the key is absent. -/
def setParam : List (Str × Str) → Str → Str → List (Str × Str)
  | [], k, v => [(k, v)]
  | (k', v') :: rest, k, v =>
    if k' = k then (k, v) :: removeKey k rest else (k', v') :: setParam rest k v

/-- `URLSearchParams.append`. -/
def appendParam (ps : List (Str × Str)) (k v : Str) : List (Str × Str) :=
  ps ++ [(k, v)]

/-- Lines 258-270: apply one `query` entry — skip null/undefined, append
each stringified element of an array, `set` the JSON text of a plain
object, `set` the stringified value otherwise. -/
def applyQueryEntry (ps : List (Str × Str)) (k : Str) (v : JsVal) : List (Str × Str) :=
  match v with
  | .vUndef => ps
  | .vNull => ps
  | .vArr xs => xs.foldl (fun acc item => appendParam acc k (jsStringOf item)) ps
  | .vObj fs => setParam ps k ((jsonStr (.vObj fs)).getD [])
  | v => setParam ps k (jsStringOf v)

/-- Apply all `query` entries in `Object.entries` order. -/
def applyQuery (ps : List (Str × Str)) (q : List (Str × JsVal)) : List (Str × Str) :=
  q.foldl (fun acc kv => applyQueryEntry acc kv.1 kv.2) ps

/-- Is this a scalar for the query-encoding branch order (not
null/undefined, not an array, not a plain object)? -/
def isScalarQ : JsVal → Bool
  | .vBool _ => true
  | .vNum _ => true
  | .vStr _ => true
  | _ => false

/-! ### Headers model -/

/-- `Headers.get`: case-insensitive lookup. -/
def headerGet : List (Str × Str) → Str → Option Str
  | [], _ => none
  | (k', v) :: rest, k => if lowerStr k' = lowerStr k then some v else headerGet rest k

/-- `Headers.set`: stores the lowercased key, overwriting any same-named
header. -/
def headerSet (hs : List (Str × Str)) (k v : Str) : List (Str × Str) :=
  setParam hs (lowerStr k) v

/-- Lines 273-279: the default `Accept` header, then caller headers
applied on top. -/
def buildHeaders (caller : Option (List (Str × Str))) : List (Str × Str) :=
  let base := headerSet [] ("Accept".toList) ("application/json, */*;q=0.8".toList)
  match caller with
  | some hs => hs.foldl (fun acc kv => headerSet acc kv.1 kv.2) base
  | none => base

/-! ### `new URL` model (simplified WHATWG acceptance) -/

/-- Characters allowed after the first character of a URL scheme. -/
def isSchemeChar (c : Char) : Bool :=
  c.isAlpha || c.isDigit || c = '+' || c = '-' || c = '.'

/-- Simplified absolute-URL acceptance of `new URL(s)`: an ASCII-alpha
initial character, a run of scheme characters, then `':'`.  Every claim
that involves URL parsing is conditional on the parse outcome, so only
the success/failure split is load-bearing. -/
def isAbsoluteUrl (s : Str) : Bool :=
  match s with
  | c :: rest =>
    c.isAlpha &&
      (match rest.dropWhile isSchemeChar with
       | ':' :: _ => true
       | _ => false)
  | [] => false

/-- Split on a separator character. -/
def splitOnChar (sep : Char) : Str → List Str
  | [] => [[]]
  | c :: rest =>
    let r := splitOnChar sep rest
    if c = sep then [] :: r
    else
      match r with
      | s :: ss => (c :: s) :: ss
      | [] => [[c]]

/-- One `key=value` segment of a query string. -/
def queryPairOfSeg (seg : Str) : Str × Str :=
  (seg.takeWhile (fun c => ¬ c = '='), (seg.dropWhile (fun c => ¬ c = '=')).tail)

/-- The query pairs `new URL` initializes `searchParams` with (WHATWG
percent-decoding is not modelled; no claim depends on it). -/
def urlQueryPairs (s : Str) : List (Str × Str) :=
  match s.dropWhile (fun c => ¬ c = '?') with
  | [] => []
  | _ :: q => ((splitOnChar '&' q).filter (fun seg => ¬ seg = [])).map queryPairOfSeg

/-- A parsed URL: its text and its search params. -/
structure UrlModel where
  text : Str
  params : List (Str × Str)

/-- `new URL(s)`, returning `none` where the constructor throws. -/
def parseUrl (s : Str) : Option UrlModel :=
  if isAbsoluteUrl s then some ⟨s, urlQueryPairs s⟩ else none

/-! ### The invocation handler up to the HTTP call (lines 230-295) -/

/-- The body finally handed to `fetch`. -/
inductive FetchBody where
  | jsonText (s : Str)
  | raw (v : JsVal)

/-- The compiled per-operation defaults the handler closes over. -/
structure Descriptor where
  method : Str
  rawPath : Str
  baseUrl : Str

/-- The caller-supplied invocation envelope.  `pathParams` defaults to the
empty record as in `fillPathParams(raw, pathParams = {})`; `none` models
an absent (or `null`, for `body`) field. -/
structure ToolInput where
  baseUrl : Option Str := none
  method : Option Str := none
  path : Option Str := none
  pathParams : List (Str × Str) := []
  query : Option (List (Str × JsVal)) := none
  headers : Option (List (Str × Str)) := none
  body : Option JsVal := none
  timeoutMs : Option Int := none

/-- Everything determined about the HTTP request at the `fetch` call. -/
structure RequestPlan where
  method : Str
  url : UrlModel
  headers : List (Str × Str)
  body : Option FetchBody
  timeout : Int

/-- Lines 281-292: drop the body for GET/HEAD; otherwise default the
content type to `application/json` and serialize accordingly. -/
def prepareBody (hdrs : List (Str × Str)) (body : Option JsVal)
    (finalMethod : Str) : Option FetchBody × List (Str × Str) :=
  match body with
  | none => (none, hdrs)
  | some b =>
    if finalMethod = "GET".toList ∨ finalMethod = "HEAD".toList then (none, hdrs)
    else
      let hdrs1 :=
        match headerGet hdrs ("content-type".toList) with
        | none => headerSet hdrs ("content-type".toList) ("application/json".toList)
        | some _ => hdrs
      if containsSub ((headerGet hdrs1 ("content-type".toList)).getD [])
          ("application/json".toList) then
        (some (.jsonText (match b with | .vStr s => s | _ => (jsonStr b).getD [])), hdrs1)
      else (some (.raw b), hdrs1)

/-- The textual result of the `new URL` catch block (lines 249-255). -/
def invalidUrlMsg (base : Str) : Str :=
  ("Invalid URL. Provide a valid baseUrl (current: \x27".toList) ++ base ++
    ("\x27) or ensure the path is absolute.".toList)

/-- The textual result of the path-parameter catch block (line 242). -/
def fillErrMsg (e : Str) : Str := ("Error filling path params: ".toList) ++ e

/-- `baseUrlOverride || baseUrl || ""` (line 236). -/
def effBase (d : Descriptor) (inp : ToolInput) : Str := jsOrStr inp.baseUrl d.baseUrl

/-- `pathOverride || rawPath` (line 237). -/
def effPath (d : Descriptor) (inp : ToolInput) : Str := jsOrStr inp.path d.rawPath

/-- `(methodOverride || method).toUpperCase()` (line 234). -/
def effMethod (d : Descriptor) (inp : ToolInput) : Str :=
  upperStr (jsOrStr inp.method d.method)

/-- The request plan issued once the URL parsed (lines 257-295 up to the
`fetch` call): apply the query entries, build headers, prepare the body,
clamp the timeout. -/
def mkPlan (d : Descriptor) (inp : ToolInput) (url : UrlModel) : RequestPlan :=
  { method := effMethod d inp
    url := ⟨url.text, applyQuery url.params (inp.query.getD [])⟩
    headers := (prepareBody (buildHeaders inp.headers) inp.body (effMethod d inp)).2
    body := (prepareBody (buildHeaders inp.headers) inp.body (effMethod d inp)).1
    timeout := effectiveTimeoutMs inp.timeoutMs }

/-- Lines 246-255: URL construction and its catch block. -/
def buildRequestUrl (d : Descriptor) (inp : ToolInput) (fullPath : Str) :
    Except Str RequestPlan :=
  match parseUrl (joinUrl (effBase d inp) fullPath) with
  | none => .error (invalidUrlMsg (effBase d inp))
  | some url => .ok (mkPlan d inp url)

/-- The handler's request construction up to (not including) the `fetch`
call (lines 234-295): a `RequestPlan` exactly when a request would be
issued, the textual error result otherwise. -/
def buildRequest (d : Descriptor) (inp : ToolInput) : Except Str RequestPlan :=
  match fillPathParams inp.pathParams (effPath d inp) with
  | .error e => .error (fillErrMsg e)
  | .ok fullPath => buildRequestUrl d inp fullPath

/-! ### `parseResponse` (lines 127-139) -/

/-- A completed HTTP response as `parseResponse` sees it. -/
structure ResponseModel where
  headers : List (Str × Str)
  bodyText : Str

/-- The normalized body. -/
inductive ParsedBody where
  | pjson (v : JsVal)
  | ptext (s : Str)

/-- The `TypeError` a second WHATWG consume-body read rejects with (the
exact host message text is version-specific). -/
def bodyUnusableMsg : Str := "TypeError: Body is unusable".toList

/-- `parseResponse` of `src/index.js` (lines 127-139) with the WHATWG
single-use body modelled.  When `content-type` contains
`application/json`, `await res.json()` consumes the body stream before
its parse can fail; on malformed JSON the catch falls through, but the
`await res.text()` of line 137 then reads an already-consumed body and
rejects with a `TypeError` — modelled as the `.error` result, which
propagates out of the normalizer (its caller at line 311 has no
try/catch).  Other content types read the body once and return the raw
text.  `JSON.parse` is a platform builtin, passed as `parseJson`. -/
def parseResponse (parseJson : Str → Option JsVal) (res : ResponseModel) :
    Except Str ParsedBody :=
  if containsSub ((headerGet res.headers ("content-type".toList)).getD [])
      ("application/json".toList) then
    match parseJson res.bodyText with
    | some j => .ok (.pjson j)
    | none => .error bodyUnusableMsg
  else .ok (.ptext res.bodyText)

/-! ### `resolveBaseUrl` (lines 83-98) -/

/-- One entry of an OpenAPI v3 `servers` list; `none` models an absent or
non-string `url`. -/
structure ServerEntry where
  url : Option Str

/-- The document fields `resolveBaseUrl` inspects.  `none` models an
absent field; for `servers`/`schemes` it also models a non-array value. -/
structure SpecDoc where
  servers : Option (List ServerEntry) := none
  swagger : Option Str := none
  host : Option Str := none
  basePath : Option Str := none
  schemes : Option (List Str) := none

/-- JavaScript truthiness of an optional string field. -/
def truthyS : Option Str → Bool
  | none => false
  | some s => !s.isEmpty

/-- Lines 85-89: the first `servers` entry's url when it is a nonempty
string. -/
def serversFirstUrl (spec : SpecDoc) : Option Str :=
  match spec.servers with
  | some (srv :: _) =>
    match srv.url with
    | some u => if u.length > 0 then some u else none
    | none => none
  | _ => none

/-- Line 92: the first declared scheme, defaulting to `https`. -/
def schemeOf (spec : SpecDoc) : Str :=
  match spec.schemes with
  | some (s :: _) => s
  | _ => "https".toList

/-- `resolveBaseUrl` of `src/index.js`. -/
def resolveBaseUrl (spec : SpecDoc) : Str :=
  match serversFirstUrl spec with
  | some u => u
  | none =>
    if truthyS spec.swagger && (truthyS spec.host || truthyS spec.basePath) then
      schemeOf spec ++ "://".toList ++ spec.host.getD [] ++ spec.basePath.getD []
    else []

/-! ### Lemmas: decimal rendering has an inverse -/

theorem digitChar_val {m : Nat} (h : m < 10) : (digitChar m).toNat - 48 = m := by
  interval_cases m <;> rfl

theorem decVal_append (l : Str) (c : Char) :
    decVal (l ++ [c]) = 10 * decVal l + (c.toNat - 48) := by
  simp [decVal, List.foldl_append]

theorem decVal_natDecGo : ∀ fuel n, 0 < n → n ≤ fuel → decVal (natDecGo fuel n) = n := by
  intro fuel
  induction fuel with
  | zero => intro n h1 h2; omega
  | succ fuel ih =>
    intro n h1 h2
    match n, h1 with
    | n + 1, _ =>
      rw [show natDecGo (fuel + 1) (n + 1) =
            (if n + 1 < 10 then [digitChar (n + 1)]
             else natDecGo fuel ((n + 1) / 10) ++ [digitChar ((n + 1) % 10)]) from rfl]
      by_cases h : n + 1 < 10
      · rw [if_pos h]
        simpa [decVal] using digitChar_val h
      · rw [if_neg h, decVal_append, ih ((n + 1) / 10) (by omega) (by omega),
          digitChar_val (Nat.mod_lt _ (by omega))]
        omega

theorem decVal_natDec (n : Nat) : decVal (natDec n) = n := by
  rcases Nat.eq_zero_or_pos n with h | h
  · subst h; rfl
  · exact decVal_natDecGo (n + 1) n h (by omega)

theorem natDec_injective : Function.Injective natDec := by
  intro a b h
  have := congrArg decVal h
  rwa [decVal_natDec, decVal_natDec] at this

/-! ### C2 theorems -/

/-- C2 counterexample: the claim says an input `timeoutMs` of `0` clamps to
`1`; in the code `timeoutMs || 30000` treats `0` as falsy, so an input of
`0` yields the default `30000`, not `1`. -/
theorem c2_timeout_counterexample :
    effectiveTimeoutMs (some 0) = 30000 ∧ (30000 : Int) ≠ 1 := by
  constructor
  · rfl
  · decide

/-- C2 (amended): the effective timeout is `timeoutMs` clamped to
`[1, 300000]` when `timeoutMs` is given and nonzero (a negative value
clamps to `1`, `10000000` clamps to `300000`); an input of `0` is treated
like an absent input and yields `30000`; an absent input yields `30000`. -/
theorem c2_timeout_amended (v : Int) :
    (v ≠ 0 → effectiveTimeoutMs (some v) = min (max v 1) 300000) ∧
    effectiveTimeoutMs (some 0) = 30000 ∧
    effectiveTimeoutMs none = 30000 := by
  refine ⟨fun hv => ?_, rfl, rfl⟩
  simp [effectiveTimeoutMs, if_neg hv]

/-- C2 witness: at `timeoutMs = -5` the amended theorem gives the clamped
value `1`; at `timeoutMs` absent it gives `30000`. -/
theorem c2_timeout_witness :
    effectiveTimeoutMs (some (-5)) = min (max (-5) 1) 300000 ∧
    effectiveTimeoutMs none = 30000 :=
  ⟨(c2_timeout_amended (-5)).1 (by decide), (c2_timeout_amended (-5)).2.2⟩

/-! ### C8 theorems -/

theorem dropWhile_of_takeWhile_nil {p : Char → Bool} {l : Str}
    (h : l.takeWhile p = []) : l.dropWhile p = l := by
  cases l with
  | nil => rfl
  | cons a t =>
    rw [List.takeWhile_cons] at h
    rw [List.dropWhile_cons]
    by_cases hp : p a = true
    · simp [hp] at h
    · simp [hp]

/-- C8 counterexample: the claim asserts exactly one separating slash for
every base and path; with base `a//` (which already carries a doubled
trailing slash) and path `b`, the code returns `a//b`, which does not have
exactly one slash at the junction. -/
theorem c8_join_url_counterexample :
    joinUrl ("a//".toList) ("b".toList) = "a//b".toList ∧
    joinUrl ("a//".toList) ("b".toList) ≠
      stripTrail ("a//".toList) ++ '/' :: stripLead ("b".toList) := by
  constructor
  · rfl
  · decide

/-- C8 (amended): for every nonempty base and nonempty path that each carry
at most one boundary slash (base at most one trailing, path at most one
leading), joining yields the base's content and the path's content with
exactly one separating slash between them. -/
theorem c8_join_url_amended (b p : Str) (hb : b ≠ []) (hp : p ≠ [])
    (hbt : countLead b.reverse ≤ 1) (hpl : countLead p ≤ 1) :
    joinUrl b p = stripTrail b ++ '/' :: stripLead p := by
  obtain ⟨c, p', rfl⟩ : ∃ c p', p = c :: p' := by
    cases p with
    | nil => exact absurd rfl hp
    | cons c p' => exact ⟨c, p', rfl⟩
  obtain ⟨d, t, hbr⟩ : ∃ d t, b.reverse = d :: t := by
    cases hrev : b.reverse with
    | nil => exact absurd (by simpa using congrArg List.reverse hrev) hb
    | cons d t => exact ⟨d, t, rfl⟩
  have hbrev : b = t.reverse ++ [d] := by
    have := congrArg List.reverse hbr
    simpa using this
  have hlast : b.getLast? = some d := by
    rw [hbrev]; exact List.getLast?_concat _
  have hplstrip : c = '/' → stripLead (c :: p') = p' := by
    intro hc; subst hc
    have h1 : countLead ('/' :: p') = 1 + countLead p' := by
      simp [countLead, List.takeWhile_cons]; omega
    have h2 : countLead p' = 0 := by omega
    have h3 : p'.takeWhile (fun x => x = '/') = [] :=
      List.eq_nil_of_length_eq_zero h2
    simp [stripLead, List.dropWhile_cons, dropWhile_of_takeWhile_nil h3]
  have hplid : c ≠ '/' → stripLead (c :: p') = c :: p' := by
    intro hc
    simp [stripLead, List.dropWhile_cons, hc]
  by_cases hd : d = '/'
  · -- base ends in a slash
    subst hd
    have h1 : countLead ('/' :: t) = 1 + countLead t := by
      simp [countLead, List.takeWhile_cons]; omega
    rw [hbr] at hbt
    have h2 : countLead t = 0 := by omega
    have h3 : t.takeWhile (fun x => x = '/') = [] :=
      List.eq_nil_of_length_eq_zero h2
    have hstrip : stripTrail b = t.reverse := by
      simp [stripTrail, hbr, stripLead, List.dropWhile_cons,
        dropWhile_of_takeWhile_nil h3]
    by_cases hc : c = '/'
    · subst hc
      rw [joinUrl, if_neg hb, if_neg (by simp),
        if_pos hlast, if_pos (show ('/' :: p').head? = some '/' from rfl),
        hstrip, hplstrip rfl, hbrev]
      simp
    · rw [joinUrl, if_neg hb, if_neg (by simp), if_pos hlast,
        if_neg (show ¬ (c :: p').head? = some '/' by simpa using hc),
        hstrip, hplid hc, hbrev]
      simp
  · -- base does not end in a slash
    have hstrip : stripTrail b = b := by
      simp [stripTrail, hbr, stripLead, List.dropWhile_cons, hd, hbrev]
    have hlast' : ¬ b.getLast? = some '/' := by
      rw [hlast]; simpa using hd
    by_cases hc : c = '/'
    · subst hc
      rw [joinUrl, if_neg hb, if_neg (by simp), if_neg hlast',
        if_pos (show ('/' :: p').head? = some '/' from rfl),
        hstrip, hplstrip rfl]
    · rw [joinUrl, if_neg hb, if_neg (by simp), if_neg hlast',
        if_neg (show ¬ (c :: p').head? = some '/' by simpa using hc),
        hstrip, hplid hc]

/-- C8 witness: joining `a/` and `/b` (one boundary slash on each side)
yields `a/b`, with exactly one separating slash. -/
theorem c8_join_url_witness :
    ("a/".toList ≠ ([] : Str)) ∧
    joinUrl ("a/".toList) ("/b".toList) =
      stripTrail ("a/".toList) ++ '/' :: stripLead ("/b".toList) :=
  ⟨by decide, c8_join_url_amended ("a/".toList) ("/b".toList)
    (by decide) (by decide) (by decide) (by decide)⟩

/-! ### Lemmas: the collision loop of `makeUniqueName` -/

theorem candName_inj {base : Str} {i j : Nat}
    (h : candName base i = candName base j) : i = j := by
  unfold candName at h
  have h2 := List.append_cancel_left h
  injection h2 with _ h3
  exact natDec_injective h3

theorem mem_candWindow {base : Str} {i fuel : Nat} {u : Str} :
    u ∈ candWindow base i fuel ↔ ∃ k, k < fuel ∧ u = candName base (i + k) := by
  simp only [candWindow, List.mem_map, List.mem_range]
  exact ⟨fun ⟨k, h1, h2⟩ => ⟨k, h1, h2.symm⟩, fun ⟨k, h1, h2⟩ => ⟨k, h1, h2.symm⟩⟩

theorem length_filter_mono {α : Type} (p q : α → Bool)
    (h : ∀ x, q x = true → p x = true) :
    ∀ l : List α, (l.filter q).length ≤ (l.filter p).length := by
  intro l
  induction l with
  | nil => simp
  | cons a t ih =>
    by_cases hq : q a = true
    · rw [List.filter_cons_of_pos hq, List.filter_cons_of_pos (h a hq)]
      simpa using ih
    · rw [List.filter_cons_of_neg (by simpa using hq)]
      by_cases hp : p a = true
      · rw [List.filter_cons_of_pos hp]
        exact Nat.le_succ_of_le ih
      · rw [List.filter_cons_of_neg (by simpa using hp)]
        exact ih

theorem length_filter_lt {α : Type} (p q : α → Bool)
    (h : ∀ x, q x = true → p x = true) (a : α) :
    ∀ l : List α, a ∈ l → p a = true → q a = false →
      (l.filter q).length < (l.filter p).length := by
  intro l
  induction l with
  | nil => intro h1; cases h1
  | cons b t ih =>
    intro hmem hpa hqa
    rcases List.mem_cons.mp hmem with rfl | hmem'
    · rw [List.filter_cons_of_pos hpa, List.filter_cons_of_neg (by simp [hqa])]
      exact Nat.lt_succ_of_le (length_filter_mono p q h t)
    · by_cases hq : q b = true
      · rw [List.filter_cons_of_pos hq, List.filter_cons_of_pos (h b hq)]
        simpa using ih hmem' hpa hqa
      · rw [List.filter_cons_of_neg (by simpa using hq)]
        by_cases hp : p b = true
        · rw [List.filter_cons_of_pos hp]
          exact Nat.lt_succ_of_lt (ih hmem' hpa hqa)
        · rw [List.filter_cons_of_neg (by simpa using hp)]
          exact ih hmem' hpa hqa

/-- Adequate fuel makes the collision loop return the first unused
candidate at or after index `i`. -/
theorem findFree_spec (base : Str) (used : List Str) :
    ∀ fuel i,
      (used.filter (fun u => decide (u ∈ candWindow base i fuel))).length < fuel →
      ∃ k, i ≤ k ∧ findFree base used i fuel = candName base k ∧
        candName base k ∉ used ∧ ∀ j, i ≤ j → j < k → candName base j ∈ used := by
  intro fuel
  induction fuel with
  | zero => intro i h; omega
  | succ fuel ih =>
    intro i h
    by_cases hmem : candName base i ∈ used
    · have hmono : ∀ u : Str, decide (u ∈ candWindow base (i + 1) fuel) = true →
          decide (u ∈ candWindow base i (fuel + 1)) = true := by
        intro u hu
        rw [decide_eq_true_iff] at hu ⊢
        obtain ⟨k, hk, rfl⟩ := mem_candWindow.mp hu
        exact mem_candWindow.mpr ⟨k + 1, by omega, by rw [Nat.add_assoc, Nat.add_comm 1 k]⟩
      have hpa : decide (candName base i ∈ candWindow base i (fuel + 1)) = true := by
        rw [decide_eq_true_iff]
        exact mem_candWindow.mpr ⟨0, by omega, by rw [Nat.add_zero]⟩
      have hqa : decide (candName base i ∈ candWindow base (i + 1) fuel) = false := by
        rw [decide_eq_false_iff_not]
        intro hc
        obtain ⟨k, _, hk⟩ := mem_candWindow.mp hc
        have := candName_inj hk
        omega
      have hlt :
          (used.filter (fun u => decide (u ∈ candWindow base (i + 1) fuel))).length < fuel := by
        have := length_filter_lt _ _ hmono (candName base i) used hmem hpa hqa
        omega
      obtain ⟨k, hk1, hk2, hk3, hk4⟩ := ih (i + 1) hlt
      refine ⟨k, by omega, ?_, hk3, ?_⟩
      · rw [show findFree base used i (fuel + 1)
            = (if candName base i ∈ used then findFree base used (i + 1) fuel
               else candName base i) from rfl, if_pos hmem]
        exact hk2
      · intro j hj1 hj2
        rcases Nat.eq_or_lt_of_le hj1 with rfl | hj3
        · exact hmem
        · exact hk4 j hj3 hj2
    · refine ⟨i, Nat.le_refl i, ?_, hmem, fun j h1 h2 => by omega⟩
      rw [show findFree base used i (fuel + 1)
          = (if candName base i ∈ used then findFree base used (i + 1) fuel
             else candName base i) from rfl, if_neg hmem]

/-- The name returned by `makeUniqueName` is never one already in `used`. -/
theorem makeUniqueName_not_mem (base : Str) (used : List Str) :
    makeUniqueName base used ∉ used := by
  unfold makeUniqueName
  by_cases h : base ∈ used
  · rw [if_pos h]
    have hlt : (used.filter
        (fun u => decide (u ∈ candWindow base 2 (used.length + 1)))).length
        < used.length + 1 :=
      Nat.lt_succ_of_le (List.length_filter_le _ used)
    obtain ⟨k, _, heq, hnot, _⟩ := findFree_spec base used (used.length + 1) 2 hlt
    rw [heq]; exact hnot
  · rw [if_neg h]; exact h

theorem makeUniqueName_of_not_mem {base : Str} {used : List Str}
    (h : base ∉ used) : makeUniqueName base used = base := by
  simp [makeUniqueName, h]

/-- Every run of the allocator issues pairwise distinct names, none of
them already in the initial `used` set. -/
theorem allocList_nodup (ps : List Str) : ∀ used : List Str,
    (allocList used ps).1.Nodup ∧ ∀ n ∈ (allocList used ps).1, n ∉ used := by
  induction ps with
  | nil => intro used; simp [allocList]
  | cons p ps ih =>
    intro used
    obtain ⟨ihn, ihd⟩ := ih (makeUniqueName p used :: used)
    constructor
    · refine List.nodup_cons.mpr ⟨?_, ihn⟩
      intro hmem
      exact (ihd _ hmem) (List.mem_cons_self _ _)
    · intro n hn
      rcases List.mem_cons.mp hn with rfl | hn'
      · exact makeUniqueName_not_mem p used
      · exact fun hc => ihd n hn' (List.mem_cons_of_mem _ hc)

/-- When the proposals are pairwise distinct and fresh, the allocator
issues exactly the proposals. -/
theorem allocList_of_nodup : ∀ (ps : List Str) (used : List Str),
    ps.Nodup → (∀ p ∈ ps, p ∉ used) →
    allocList used ps = (ps, ps.reverse ++ used) := by
  intro ps
  induction ps with
  | nil => intro used _ _; simp [allocList]
  | cons p ps ih =>
    intro used hnd hdisj
    have hp : p ∉ used := hdisj p (List.mem_cons_self _ _)
    have hname : makeUniqueName p used = p := makeUniqueName_of_not_mem hp
    have hrest : allocList (p :: used) ps = (ps, ps.reverse ++ (p :: used)) := by
      refine ih _ (List.nodup_cons.mp hnd).2 ?_
      intro q hq
      rw [List.mem_cons]
      rintro (rfl | hqu)
      · exact (List.nodup_cons.mp hnd).1 hq
      · exact hdisj q (List.mem_cons_of_mem _ hq) hqu
    simp [allocList, hname, hrest]

/-- C4: the name allocator returns a proposed name unchanged if unseen;
otherwise it returns the first of `base-2`, `base-3`, ... that is unused;
and no two names returned in one run are equal (it is a pure function of
its inputs, so it is deterministic by construction). -/
theorem c4_name_allocator (base : Str) (used : List Str) (ps : List Str) :
    (base ∉ used → makeUniqueName base used = base) ∧
    (base ∈ used → ∃ k, 2 ≤ k ∧ makeUniqueName base used = candName base k ∧
      candName base k ∉ used ∧ ∀ j, 2 ≤ j → j < k → candName base j ∈ used) ∧
    (allocList [] ps).1.Nodup := by
  refine ⟨fun h => makeUniqueName_of_not_mem h, fun h => ?_, (allocList_nodup ps []).1⟩
  rw [makeUniqueName, if_pos h]
  have hlt : (used.filter
      (fun u => decide (u ∈ candWindow base 2 (used.length + 1)))).length
      < used.length + 1 :=
    Nat.lt_succ_of_le (List.length_filter_le _ used)
  obtain ⟨k, hk1, hk2, hk3, hk4⟩ := findFree_spec base used (used.length + 1) 2 hlt
  exact ⟨k, hk1, hk2, hk3, hk4⟩

/-- C4 witness: a fresh proposal is returned unchanged; a colliding
proposal receives the first free suffix. -/
theorem c4_name_allocator_witness :
    ("pets".toList ∉ (["store".toList] : List Str)) ∧
    makeUniqueName ("pets".toList) ["store".toList] = "pets".toList :=
  ⟨by decide, (c4_name_allocator ("pets".toList) ["store".toList] []).1 (by decide)⟩

/-! ### C1 theorems -/

/-- Compilation issues exactly the proposals when all proposals of the run
are pairwise distinct and fresh. -/
theorem compileDocs_of_nodup : ∀ (docs : List FetchedSpec) (used : List Str),
    (docs.flatMap proposalsOfDoc).Nodup →
    (∀ p ∈ docs.flatMap proposalsOfDoc, p ∉ used) →
    compileDocs used docs = docs.map proposalsOfDoc := by
  intro docs
  induction docs with
  | nil => intro used _ _; rfl
  | cons d ds ih =>
    intro used hnd hdisj
    rw [List.flatMap_cons] at hnd hdisj
    have hparts := List.nodup_append.mp hnd
    have halloc : allocList used (proposalsOfDoc d)
        = (proposalsOfDoc d, (proposalsOfDoc d).reverse ++ used) := by
      refine allocList_of_nodup _ _ hparts.1 ?_
      intro p hp
      exact hdisj p (List.mem_append_left _ hp)
    rw [show compileDocs used (d :: ds)
        = (allocList used (proposalsOfDoc d)).1 ::
            compileDocs (allocList used (proposalsOfDoc d)).2 ds from rfl,
      halloc]
    rw [List.map_cons]
    refine congrArg _ ?_
    refine ih _ hparts.2.1 ?_
    intro p hp
    rw [List.mem_append]
    rintro (hrev | hused)
    · exact hparts.2.2 (List.mem_reverse.mp hrev) hp
    · exact hdisj p (List.mem_append_right _ hp) hused

/-- C1 counterexample: two fetched documents with the same derived key.
If the fetch of the first document completes first, its operations receive
`a.x` and `a.x-2` and the second document's operation receives `a.x-3`;
if the second completes first it receives `a.x` instead, and the first
document's operations receive `a.x` and `a.x-2-2`.  Compilation follows
the `specs.push` (fetch-completion) order, so completion order changes
the issued names, refuting the claim. -/
theorem c1_completion_order_counterexample :
    compilePerDoc
      [⟨"a".toList, [("/x".toList, [("get".toList, ⟨some ("x".toList)⟩)]),
                     ("/y".toList, [("get".toList, ⟨some ("x-2".toList)⟩)])]⟩,
       ⟨"a".toList, [("/z".toList, [("get".toList, ⟨some ("x".toList)⟩)])]⟩]
      = [["a.x".toList, "a.x-2".toList], ["a.x-3".toList]] ∧
    compilePerDoc
      [⟨"a".toList, [("/z".toList, [("get".toList, ⟨some ("x".toList)⟩)])]⟩,
       ⟨"a".toList, [("/x".toList, [("get".toList, ⟨some ("x".toList)⟩)]),
                     ("/y".toList, [("get".toList, ⟨some ("x-2".toList)⟩)])]⟩]
      = [["a.x".toList], ["a.x-2".toList, "a.x-2-2".toList]] ∧
    (["a.x-3".toList] : List Str) ≠ ["a.x".toList] := by
  refine ⟨by decide, by decide, by decide⟩

/-- C1 (amended): documents are compiled in fetch-completion order, not
original list order, so completion order can change issued names when
proposed base names collide across the run; when all proposed base names
are pairwise distinct, every operation receives exactly its proposed name,
and the issued names are then independent of the completion order. -/
theorem c1_completion_order_amended (docs : List FetchedSpec)
    (h : (docs.flatMap proposalsOfDoc).Nodup) :
    compilePerDoc docs = docs.map proposalsOfDoc :=
  compileDocs_of_nodup docs [] h (fun p _ hmem => by cases hmem)

/-- C1 witness: a single document with two distinct proposed names
compiles to exactly those names. -/
theorem c1_completion_order_witness :
    compilePerDoc
      [⟨"a".toList, [("/x".toList, [("get".toList, ⟨some ("x".toList)⟩)]),
                     ("/y".toList, [("get".toList, ⟨some ("y".toList)⟩)])]⟩]
      = [proposalsOfDoc
          ⟨"a".toList, [("/x".toList, [("get".toList, ⟨some ("x".toList)⟩)]),
                        ("/y".toList, [("get".toList, ⟨some ("y".toList)⟩)])]⟩] :=
  c1_completion_order_amended
    [⟨"a".toList, [("/x".toList, [("get".toList, ⟨some ("x".toList)⟩)]),
                   ("/y".toList, [("get".toList, ⟨some ("y".toList)⟩)])]⟩]
    (by decide)

/-! ### Lemmas: the token scan -/

theorem splitRB_unfold (c : Char) (rest : Str) :
    splitAtRBrace (c :: rest) =
      (if c = '\x7d' then some ([], rest)
       else
        match splitAtRBrace rest with
        | some (a, b) => some (c :: a, b)
        | none => none) := rfl

theorem splitRB_lt : ∀ (l a b : Str), splitAtRBrace l = some (a, b) → b.length < l.length := by
  intro l
  induction l with
  | nil => intro a b h; simp [splitAtRBrace] at h
  | cons c rest ih =>
    intro a b h
    rw [splitRB_unfold] at h
    by_cases hc : c = '\x7d'
    · rw [if_pos hc] at h
      obtain ⟨-, rfl⟩ := Prod.mk.injEq .. ▸ (Option.some.injEq .. ▸ h)
      simp
    · rw [if_neg hc] at h
      cases hsp : splitAtRBrace rest with
      | none => rw [hsp] at h; simp at h
      | some p =>
        obtain ⟨a', b'⟩ := p
        rw [hsp] at h
        obtain ⟨-, rfl⟩ := Prod.mk.injEq .. ▸ (Option.some.injEq .. ▸ h)
        have := ih a' b' hsp
        simp
        omega

theorem splitRB_rb (r : Str) : splitAtRBrace ('\x7d' :: r) = some ([], r) := rfl

theorem splitRB_no_rb : ∀ (a r : Str), (∀ c ∈ a, ¬ c = '\x7d') →
    splitAtRBrace (a ++ '\x7d' :: r) = some (a, r) := by
  intro a
  induction a with
  | nil => intro r _; rfl
  | cons c a ih =>
    intro r h
    rw [List.cons_append, splitRB_unfold, if_neg (h c (List.mem_cons_self _ _)),
      ih r (fun d hd => h d (List.mem_cons_of_mem _ hd))]

theorem tokensGo_unfold (fuel : Nat) (c : Char) (rest : Str) :
    tokensGo (fuel + 1) (c :: rest) =
      (if c = '\x7b' then
        match splitAtRBrace rest with
        | some (tok, rest') =>
          if tok = [] then tokensGo fuel rest' else tok :: tokensGo fuel rest'
        | none => []
       else tokensGo fuel rest) := rfl

theorem tokensGo_irrel : ∀ fuel fuel' (l : Str), l.length ≤ fuel → l.length ≤ fuel' →
    tokensGo fuel l = tokensGo fuel' l := by
  intro fuel
  induction fuel with
  | zero =>
    intro fuel' l h1 _
    obtain rfl : l = [] := List.length_eq_zero.mp (by omega)
    cases fuel' <;> rfl
  | succ fuel ih =>
    intro fuel' l h1 h2
    cases l with
    | nil => cases fuel' <;> rfl
    | cons c rest =>
      cases fuel' with
      | zero => simp at h2
      | succ fuel'' =>
        rw [tokensGo_unfold, tokensGo_unfold]
        have hr1 : rest.length ≤ fuel := by simp at h1; omega
        have hr2 : rest.length ≤ fuel'' := by simp at h2; omega
        by_cases hc : c = '\x7b'
        · rw [if_pos hc, if_pos hc]
          cases hsp : splitAtRBrace rest with
          | none => rfl
          | some p =>
            obtain ⟨tok, rest'⟩ := p
            have hlt := splitRB_lt rest tok rest' hsp
            have h3 : rest'.length ≤ fuel := by omega
            have h4 : rest'.length ≤ fuel'' := by omega
            by_cases ht : tok = [] <;> simp [ht, ih fuel'' rest' h3 h4]
        · rw [if_neg hc, if_neg hc]
          exact ih fuel'' rest hr1 hr2

theorem tokensGo_eq_tokensOf {fuel : Nat} {l : Str} (h : l.length ≤ fuel) :
    tokensGo fuel l = tokensOf l :=
  tokensGo_irrel fuel l.length l h (Nat.le_refl _)

theorem tokensOf_nil : tokensOf [] = [] := rfl

theorem tokensOf_cons_ne {c : Char} (l : Str) (hc : ¬ c = '\x7b') :
    tokensOf (c :: l) = tokensOf l := by
  show tokensGo (l.length + 1) (c :: l) = tokensOf l
  rw [tokensGo_unfold, if_neg hc]
  rfl

theorem tokensOf_lb_some (rest tok rest' : Str)
    (hsp : splitAtRBrace rest = some (tok, rest')) :
    tokensOf ('\x7b' :: rest) =
      (if tok = [] then tokensOf rest' else tok :: tokensOf rest') := by
  show tokensGo (rest.length + 1) ('\x7b' :: rest) = _
  rw [tokensGo_unfold, if_pos rfl, hsp]
  have hlt := splitRB_lt rest tok rest' hsp
  by_cases ht : tok = [] <;>
    simp [ht, tokensGo_eq_tokensOf (show rest'.length ≤ rest.length by omega)]

theorem tokensOf_lb_none (rest : Str) (hsp : splitAtRBrace rest = none) :
    tokensOf ('\x7b' :: rest) = [] := by
  show tokensGo (rest.length + 1) ('\x7b' :: rest) = _
  rw [tokensGo_unfold, if_pos rfl, hsp]

theorem tokensOf_append_no_lb : ∀ (chunk l : Str), (∀ c ∈ chunk, ¬ c = '\x7b') →
    tokensOf (chunk ++ l) = tokensOf l := by
  intro chunk
  induction chunk with
  | nil => intro l _; rfl
  | cons c chunk ih =>
    intro l h
    rw [List.cons_append, tokensOf_cons_ne _ (h c (List.mem_cons_self _ _))]
    exact ih l (fun d hd => h d (List.mem_cons_of_mem _ hd))

/-! ### Lemmas: percent-encoded output carries no opening brace -/

theorem hexChar_ne_lb (n : Nat) : ¬ hexChar n = '\x7b' := by
  unfold hexChar
  by_cases h : n < ("0123456789ABCDEF".toList).length
  · rw [List.getD_eq_getElem _ _ h]
    have hall : ∀ x ∈ "0123456789ABCDEF".toList, ¬ x = '\x7b' := by decide
    exact hall _ (List.getElem_mem h)
  · rw [List.getD_eq_default _ _ (by omega)]
    decide

theorem encode_no_lb (v : Str) : ∀ c ∈ encodeURIComponent v, ¬ c = '\x7b' := by
  intro c hc
  unfold encodeURIComponent at hc
  rw [List.mem_flatMap] at hc
  obtain ⟨c0, _, hc2⟩ := hc
  by_cases hu : isUnreservedURI c0
  · rw [if_pos hu] at hc2
    simp only [List.mem_singleton] at hc2
    subst hc2
    intro h
    subst h
    exact absurd hu (by decide)
  · rw [if_neg hu] at hc2
    rw [List.mem_flatMap] at hc2
    obtain ⟨b, -, hc3⟩ := hc2
    unfold pctByte at hc3
    simp only [List.mem_cons, List.mem_singleton, List.not_mem_nil, or_false] at hc3
    rcases hc3 with rfl | rfl | rfl
    · decide
    · exact hexChar_ne_lb _
    · exact hexChar_ne_lb _

/-! ### Lemmas: `fillPathParams` -/

theorem fillGo_unfold (ps : List (Str × Str)) (fuel : Nat) (c : Char) (rest : Str) :
    fillGo ps (fuel + 1) (c :: rest) =
      (if c = '\x7b' then
        match splitAtRBrace rest with
        | some (tok, rest') =>
          if tok = [] then
            match fillGo ps fuel rest' with
            | .ok out => .ok (c :: '\x7d' :: out)
            | .error e => .error e
          else
            if jsInObj ps tok then
              match fillGo ps fuel rest' with
              | .ok out => .ok (encodeURIComponent (jsPathValStr ps tok) ++ out)
              | .error e => .error e
            else .error (missingMsg tok)
        | none => .ok (c :: rest)
       else
        match fillGo ps fuel rest with
        | .ok out => .ok (c :: out)
        | .error e => .error e) := rfl

theorem fillGo_irrel (ps : List (Str × Str)) : ∀ fuel fuel' (l : Str),
    l.length ≤ fuel → l.length ≤ fuel' → fillGo ps fuel l = fillGo ps fuel' l := by
  intro fuel
  induction fuel with
  | zero =>
    intro fuel' l h1 _
    obtain rfl : l = [] := List.length_eq_zero.mp (by omega)
    cases fuel' <;> rfl
  | succ fuel ih =>
    intro fuel' l h1 h2
    cases l with
    | nil => cases fuel' <;> rfl
    | cons c rest =>
      cases fuel' with
      | zero => simp at h2
      | succ fuel'' =>
        rw [fillGo_unfold, fillGo_unfold]
        have hr1 : rest.length ≤ fuel := by simp at h1; omega
        have hr2 : rest.length ≤ fuel'' := by simp at h2; omega
        by_cases hc : c = '\x7b'
        · rw [if_pos hc, if_pos hc]
          cases hsp : splitAtRBrace rest with
          | none => rfl
          | some p =>
            obtain ⟨tok, rest'⟩ := p
            have hlt := splitRB_lt rest tok rest' hsp
            have h3 : rest'.length ≤ fuel := by omega
            have h4 : rest'.length ≤ fuel'' := by omega
            by_cases ht : tok = [] <;> simp [ht, ih fuel'' rest' h3 h4]
        · rw [if_neg hc, if_neg hc]
          rw [ih fuel'' rest hr1 hr2]

theorem fillGo_eq_fill {ps : List (Str × Str)} {fuel : Nat} {l : Str}
    (h : l.length ≤ fuel) : fillGo ps fuel l = fillPathParams ps l :=
  fillGo_irrel ps fuel l.length l h (Nat.le_refl _)

theorem fill_cons_ne (ps : List (Str × Str)) {c : Char} (l : Str) (hc : ¬ c = '\x7b') :
    fillPathParams ps (c :: l) =
      (match fillPathParams ps l with
       | .ok out => .ok (c :: out)
       | .error e => .error e) := by
  show fillGo ps (l.length + 1) (c :: l) = _
  rw [fillGo_unfold, if_neg hc]
  rfl

theorem fill_lb_some (ps : List (Str × Str)) (rest tok rest' : Str)
    (hsp : splitAtRBrace rest = some (tok, rest')) :
    fillPathParams ps ('\x7b' :: rest) =
      (if tok = [] then
        match fillPathParams ps rest' with
        | .ok out => .ok ('\x7b' :: '\x7d' :: out)
        | .error e => .error e
       else
        if jsInObj ps tok then
          match fillPathParams ps rest' with
          | .ok out => .ok (encodeURIComponent (jsPathValStr ps tok) ++ out)
          | .error e => .error e
        else .error (missingMsg tok)) := by
  show fillGo ps (rest.length + 1) ('\x7b' :: rest) = _
  rw [fillGo_unfold, if_pos rfl, hsp]
  have hlt := splitRB_lt rest tok rest' hsp
  have hle : rest'.length ≤ rest.length := by omega
  by_cases ht : tok = [] <;> simp [ht, fillGo_eq_fill hle]

theorem fill_lb_none (ps : List (Str × Str)) (rest : Str)
    (hsp : splitAtRBrace rest = none) :
    fillPathParams ps ('\x7b' :: rest) = .ok ('\x7b' :: rest) := by
  show fillGo ps (rest.length + 1) ('\x7b' :: rest) = _
  rw [fillGo_unfold, if_pos rfl, hsp]

/-- A template whose first token not `in pathParams` (scan order) is `m`
fills to exactly the error the source throws, naming `m`. -/
theorem fill_missing : ∀ (n : Nat) (ps : List (Str × Str)) (l : Str), l.length ≤ n →
    ∀ m, (tokensOf l).find? (fun t => !jsInObj ps t) = some m →
    fillPathParams ps l = .error (missingMsg m) := by
  intro n
  induction n with
  | zero =>
    intro ps l h m hf
    obtain rfl : l = [] := List.length_eq_zero.mp (by omega)
    simp [tokensOf_nil] at hf
  | succ n ih =>
    intro ps l h m hf
    cases l with
    | nil => simp [tokensOf_nil] at hf
    | cons c rest =>
      by_cases hc : c = '\x7b'
      · subst hc
        cases hsp : splitAtRBrace rest with
        | none =>
          rw [tokensOf_lb_none rest hsp] at hf
          simp at hf
        | some p =>
          obtain ⟨tok, rest'⟩ := p
          rw [tokensOf_lb_some rest tok rest' hsp] at hf
          rw [fill_lb_some ps rest tok rest' hsp]
          have hlen : rest'.length ≤ n := by
            have := splitRB_lt rest tok rest' hsp
            simp at h
            omega
          by_cases ht : tok = []
          · rw [if_pos ht] at hf
            rw [if_pos ht, ih ps rest' hlen m hf]
          · rw [if_neg ht] at hf
            rw [if_neg ht]
            cases hin : jsInObj ps tok with
            | false =>
              rw [List.find?_cons_of_pos _ (by simp [hin])] at hf
              obtain rfl : tok = m := by simpa using hf
              rw [if_neg (by simp [hin])]
            | true =>
              rw [List.find?_cons_of_neg _ (by simp [hin])] at hf
              rw [if_pos (show (true : Bool) = true from rfl),
                ih ps rest' hlen m hf]
      · rw [fill_cons_ne ps rest hc]
        rw [tokensOf_cons_ne rest hc] at hf
        rw [ih ps rest (by simp at h; omega) m hf]

/-- A template all of whose tokens are present (`in pathParams`, own or
inherited) fills successfully, and the result contains no token. -/
theorem fill_covered : ∀ (n : Nat) (ps : List (Str × Str)) (l : Str), l.length ≤ n →
    (∀ t ∈ tokensOf l, jsInObj ps t = true) →
    ∃ out, fillPathParams ps l = .ok out ∧ tokensOf out = [] := by
  intro n
  induction n with
  | zero =>
    intro ps l h _
    obtain rfl : l = [] := List.length_eq_zero.mp (by omega)
    exact ⟨[], rfl, rfl⟩
  | succ n ih =>
    intro ps l h hcov
    cases l with
    | nil => exact ⟨[], rfl, rfl⟩
    | cons c rest =>
      by_cases hc : c = '\x7b'
      · subst hc
        cases hsp : splitAtRBrace rest with
        | none =>
          refine ⟨'\x7b' :: rest, fill_lb_none ps rest hsp, ?_⟩
          exact tokensOf_lb_none rest hsp
        | some p =>
          obtain ⟨tok, rest'⟩ := p
          rw [tokensOf_lb_some rest tok rest' hsp] at hcov
          rw [fill_lb_some ps rest tok rest' hsp]
          have hlen : rest'.length ≤ n := by
            have := splitRB_lt rest tok rest' hsp
            simp at h
            omega
          by_cases ht : tok = []
          · rw [if_pos ht] at hcov
            obtain ⟨out, h1, h2⟩ := ih ps rest' hlen hcov
            rw [if_pos ht, h1]
            refine ⟨'\x7b' :: '\x7d' :: out, rfl, ?_⟩
            rw [tokensOf_lb_some ('\x7d' :: out) [] out (splitRB_rb out), if_pos rfl, h2]
          · rw [if_neg ht] at hcov
            rw [if_neg ht]
            have hin : jsInObj ps tok = true := hcov tok (List.mem_cons_self _ _)
            obtain ⟨out, h1, h2⟩ :=
              ih ps rest' hlen (fun t htk => hcov t (List.mem_cons_of_mem _ htk))
            rw [if_pos hin, h1]
            refine ⟨encodeURIComponent (jsPathValStr ps tok) ++ out, rfl, ?_⟩
            rw [tokensOf_append_no_lb _ _ (encode_no_lb _), h2]
      · rw [fill_cons_ne ps rest hc]
        rw [tokensOf_cons_ne rest hc] at hcov
        obtain ⟨out, h1, h2⟩ := ih ps rest (by simp at h; omega) hcov
        rw [h1]
        exact ⟨c :: out, rfl, by rw [tokensOf_cons_ne _ hc, h2]⟩

/-! ### C3 theorems -/

/-- C3 counterexample: the guard of line 72 is `name in pathParams`, and
JavaScript `in` consults the prototype chain.  A template token named
like an `Object.prototype` member — here `toString` — with no
caller-supplied entry does not throw: the token is a token of the
template and has no entry, yet substitution succeeds (the inherited
member's string form is substituted) and the HTTP request is issued,
refuting the claim's error-and-no-request prediction. -/
theorem c3_path_substitution_counterexample :
    (lookupStr ([] : List (Str × Str)) ("toString".toList)).isNone = true ∧
    tokensOf ("/\x7btoString\x7d".toList) = ["toString".toList] ∧
    (fillPathParams [] ("/\x7btoString\x7d".toList)).isOk = true ∧
    (buildRequest ⟨"get".toList, "/\x7btoString\x7d".toList,
        "https://x".toList⟩ {}).isOk = true :=
  ⟨rfl, rfl, rfl, rfl⟩

/-- C3 (amended): when the effective path template has a token for which
`name in pathParams` is false — no own entry and not an inherited
`Object.prototype` property name — the invocation returns the textual
error naming the first such token (scan order) and no request plan is
built, hence no HTTP request is issued; when every token is present (own
entry or inherited name), substitution succeeds and the result contains
no token; a lone token covered by an own entry substitutes to exactly the
percent-encoded string form of its parameter. -/
theorem c3_path_substitution_amended (d : Descriptor) (inp : ToolInput) :
    (∀ m, (tokensOf (effPath d inp)).find?
        (fun t => !jsInObj inp.pathParams t) = some m →
      buildRequest d inp = .error (fillErrMsg (missingMsg m))) ∧
    ((∀ t ∈ tokensOf (effPath d inp), jsInObj inp.pathParams t = true) →
      ∃ out, fillPathParams inp.pathParams (effPath d inp) = .ok out ∧
        tokensOf out = []) ∧
    (∀ (name v : Str), name ≠ [] → (∀ c ∈ name, ¬ c = '\x7d') →
      fillPathParams [(name, v)] ('\x7b' :: (name ++ ['\x7d'])) =
        .ok (encodeURIComponent v)) := by
  refine ⟨fun m hf => ?_, fun hcov => ?_, fun name v hname hno => ?_⟩
  · unfold buildRequest
    rw [fill_missing (effPath d inp).length inp.pathParams _ (Nat.le_refl _) m hf]
  · exact fill_covered (effPath d inp).length inp.pathParams _ (Nat.le_refl _) hcov
  · have hlook : lookupStr [(name, v)] name = some v := by simp [lookupStr]
    have hin : jsInObj [(name, v)] name = true := by simp [jsInObj, hlook]
    have hval : jsPathValStr [(name, v)] name = v := by
      unfold jsPathValStr
      rw [hlook]
    rw [fill_lb_some [(name, v)] (name ++ ['\x7d']) name []
        (splitRB_no_rb name [] hno),
      if_neg hname, if_pos hin]
    show Except.ok (encodeURIComponent (jsPathValStr [(name, v)] name) ++ ([] : Str)) = _
    rw [hval, List.append_nil]

/-- C3 witness: the default path `/pets/\x7bid\x7d` with an empty
parameter map (`id` is neither an own entry nor an inherited name) yields
exactly the missing-parameter error for `id`, before any request plan
exists. -/
theorem c3_path_substitution_witness :
    buildRequest ⟨"get".toList, "/pets/\x7bid\x7d".toList,
        "https://api.example.com/v1".toList⟩ {} =
      .error (fillErrMsg (missingMsg ("id".toList))) :=
  (c3_path_substitution_amended
      ⟨"get".toList, "/pets/\x7bid\x7d".toList,
        "https://api.example.com/v1".toList⟩ {}).1
    ("id".toList) (by rfl)

/-! ### C5 theorems -/

/-- C5: when the joined base-plus-filled-path string does not parse as an
absolute URL, the invocation returns the textual error instructing the
caller to supply a `baseUrl` (the catch block of lines 249-255), and no
request plan is built, so no HTTP request is sent. -/
theorem c5_invalid_url (d : Descriptor) (inp : ToolInput) (out : Str)
    (hfill : fillPathParams inp.pathParams (effPath d inp) = .ok out)
    (hparse : parseUrl (joinUrl (effBase d inp) out) = none) :
    buildRequest d inp = .error (invalidUrlMsg (effBase d inp)) := by
  unfold buildRequest
  rw [hfill]
  show buildRequestUrl d inp out = _
  unfold buildRequestUrl
  rw [hparse]

/-- C5 witness: a descriptor with no base URL and the relative path
`/pets` fails URL construction and returns the instructing error. -/
theorem c5_invalid_url_witness :
    buildRequest ⟨"get".toList, "/pets".toList, []⟩ {} =
      .error (invalidUrlMsg []) :=
  c5_invalid_url ⟨"get".toList, "/pets".toList, []⟩ {} ("/pets".toList)
    (by rfl) (by rfl)

/-! ### C10 theorems -/

/-- C10: when the effective method upper-cases to GET or HEAD, a supplied
body is silently dropped — every issued request plan carries no body and
its headers are exactly the default-plus-caller headers, with no
content-type added on the caller's behalf. -/
theorem c10_get_head_body_dropped (d : Descriptor) (inp : ToolInput)
    (hm : effMethod d inp = "GET".toList ∨ effMethod d inp = "HEAD".toList) :
    ∀ plan, buildRequest d inp = .ok plan →
      plan.body = none ∧ plan.headers = buildHeaders inp.headers := by
  intro plan h
  have hpb : prepareBody (buildHeaders inp.headers) inp.body (effMethod d inp)
      = (none, buildHeaders inp.headers) := by
    cases inp.body with
    | none => rfl
    | some b =>
      show (if effMethod d inp = "GET".toList ∨ effMethod d inp = "HEAD".toList
            then ((none : Option FetchBody), buildHeaders inp.headers)
            else _) = _
      rw [if_pos hm]
  unfold buildRequest at h
  cases hf : fillPathParams inp.pathParams (effPath d inp) with
  | error e => rw [hf] at h; simp at h
  | ok out =>
    rw [hf] at h
    replace h : buildRequestUrl d inp out = .ok plan := h
    unfold buildRequestUrl at h
    cases hp : parseUrl (joinUrl (effBase d inp) out) with
    | none => rw [hp] at h; simp at h
    | some url =>
      rw [hp] at h
      replace h : Except.ok (mkPlan d inp url) = .ok plan := h
      have h2 := Except.ok.inj h
      rw [← h2]
      constructor
      · show (prepareBody (buildHeaders inp.headers) inp.body (effMethod d inp)).1 = none
        rw [hpb]
      · show (prepareBody (buildHeaders inp.headers) inp.body (effMethod d inp)).2 = _
        rw [hpb]

/-- C10 witness: a GET invocation carrying a string body issues exactly
the plan of the body-free invocation — no body, untouched headers. -/
theorem c10_get_head_body_dropped_witness :
    buildRequest ⟨"get".toList, "/pets".toList, "https://x".toList⟩
        { body := some (.vStr ("hi".toList)) } =
      .ok ⟨"GET".toList, ⟨"https://x/pets".toList, []⟩,
        [("accept".toList, "application/json, */*;q=0.8".toList)], none, 30000⟩ ∧
    (⟨"GET".toList, ⟨"https://x/pets".toList, []⟩,
        [("accept".toList, "application/json, */*;q=0.8".toList)], none,
        30000⟩ : RequestPlan).body = none :=
  have h : buildRequest ⟨"get".toList, "/pets".toList, "https://x".toList⟩
      { body := some (.vStr ("hi".toList)) } =
    .ok ⟨"GET".toList, ⟨"https://x/pets".toList, []⟩,
      [("accept".toList, "application/json, */*;q=0.8".toList)], none, 30000⟩ := rfl
  ⟨h, (c10_get_head_body_dropped
      ⟨"get".toList, "/pets".toList, "https://x".toList⟩
      { body := some (.vStr ("hi".toList)) } (Or.inl rfl) _ h).1⟩

/-! ### C9 theorem -/

/-- C9: the code evaluated at the failing input.  A response with a JSON
content type whose body fails to parse makes the normalizer raise the
modelled consume-body `TypeError` instead of returning the raw text:
`res.json()` (line 131) consumed the single-use body before rejecting, so
the `res.text()` fallback of line 137 rejects, although the claim — and
the code's own comments on lines 125 and 134 — say the raw text is
returned and nothing is thrown.  A successful parse and a non-JSON
content type behave as documented. -/
theorem c9_parse_response_code_bug :
    parseResponse (fun _ => none)
        ⟨[("content-type".toList, "application/json".toList)], "nope".toList⟩ =
      .error bodyUnusableMsg ∧
    parseResponse (fun _ => some (.vNum 1))
        ⟨[("content-type".toList, "application/json".toList)], "1".toList⟩ =
      .ok (.pjson (.vNum 1)) ∧
    parseResponse (fun _ => none)
        ⟨[("content-type".toList, "text/plain".toList)], "raw".toList⟩ =
      .ok (.ptext ("raw".toList)) :=
  ⟨rfl, rfl, rfl⟩

/-! ### C6 theorems -/

/-- C6 counterexample: a document with a host but no `swagger` version
marker.  The claim says host/basePath presence suffices for the
`https://host` fallback, but the code also requires `spec.swagger` to be
truthy (line 91) and returns the empty string here. -/
theorem c6_resolve_base_url_counterexample :
    resolveBaseUrl { host := some ("example.com".toList) } = [] ∧
    resolveBaseUrl { host := some ("example.com".toList) } ≠
      "https://example.com".toList := by
  constructor
  · rfl
  · decide

/-- C6 (amended): the derived base URL is the first `servers` entry's url
when that entry carries a nonempty string url; otherwise, when the
document carries a truthy `swagger` marker and a truthy host or base
path, it is `scheme://host + basePath` with the scheme defaulting to
`https`; otherwise it is the empty string. -/
theorem c6_resolve_base_url_amended (s : SpecDoc) :
    (∀ u, serversFirstUrl s = some u → resolveBaseUrl s = u) ∧
    (serversFirstUrl s = none → truthyS s.swagger = true →
      (truthyS s.host || truthyS s.basePath) = true →
      resolveBaseUrl s =
        schemeOf s ++ "://".toList ++ s.host.getD [] ++ s.basePath.getD []) ∧
    (serversFirstUrl s = none →
      ¬ (truthyS s.swagger = true ∧ (truthyS s.host || truthyS s.basePath) = true) →
      resolveBaseUrl s = []) ∧
    (∀ srv rest u, s.servers = some (srv :: rest) → srv.url = some u →
      u.length > 0 → serversFirstUrl s = some u) := by
  refine ⟨fun u hu => ?_, fun hsrv hsw hhb => ?_, fun hsrv hnot => ?_,
    fun srv rest u hs hu hlen => ?_⟩
  · unfold resolveBaseUrl
    rw [hu]
  · unfold resolveBaseUrl
    rw [hsrv, if_pos (by rw [hsw, hhb]; rfl)]
  · unfold resolveBaseUrl
    rw [hsrv, if_neg (by simpa [Bool.and_eq_true] using hnot)]
  · unfold serversFirstUrl
    rw [hs]
    show (match srv.url with
          | some u => if List.length u > 0 then some u else none
          | none => none) = some u
    rw [hu]
    show (if List.length u > 0 then some u else none) = some u
    rw [if_pos hlen]

/-- C6 witness: an OpenAPI-v3-style document takes its first server url. -/
theorem c6_resolve_base_url_witness :
    resolveBaseUrl { servers := some [⟨some ("https://api.example.com/v1".toList)⟩] } =
      "https://api.example.com/v1".toList :=
  (c6_resolve_base_url_amended
      { servers := some [⟨some ("https://api.example.com/v1".toList)⟩] }).1
    ("https://api.example.com/v1".toList) (by rfl)

/-! ### C7 lemmas and theorems -/

theorem valuesUnder_app (k : Str) : ∀ ps qs : List (Str × Str),
    valuesUnder k (ps ++ qs) = valuesUnder k ps ++ valuesUnder k qs := by
  intro ps qs
  induction ps with
  | nil => rfl
  | cons p ps ih =>
    obtain ⟨k', v'⟩ := p
    rw [List.cons_append]
    show (if k' = k then v' :: valuesUnder k (ps ++ qs) else valuesUnder k (ps ++ qs)) = _
    by_cases hk : k' = k
    · rw [if_pos hk]
      show _ = (if k' = k then v' :: valuesUnder k ps else valuesUnder k ps) ++ _
      rw [if_pos hk, ih, List.cons_append]
    · rw [if_neg hk]
      show _ = (if k' = k then v' :: valuesUnder k ps else valuesUnder k ps) ++ _
      rw [if_neg hk, ih]

theorem valuesUnder_removeKey (k : Str) : ∀ ps : List (Str × Str),
    valuesUnder k (removeKey k ps) = [] := by
  intro ps
  induction ps with
  | nil => rfl
  | cons p ps ih =>
    obtain ⟨k', v'⟩ := p
    show valuesUnder k (if k' = k then removeKey k ps else (k', v') :: removeKey k ps) = []
    by_cases hk : k' = k
    · rw [if_pos hk]; exact ih
    · rw [if_neg hk]
      show (if k' = k then v' :: valuesUnder k (removeKey k ps)
            else valuesUnder k (removeKey k ps)) = []
      rw [if_neg hk]; exact ih

theorem valuesUnder_setParam (k v : Str) : ∀ ps : List (Str × Str),
    valuesUnder k (setParam ps k v) = [v] := by
  intro ps
  induction ps with
  | nil =>
    show (if k = k then v :: valuesUnder k [] else valuesUnder k []) = [v]
    rw [if_pos rfl]; rfl
  | cons p ps ih =>
    obtain ⟨k', v'⟩ := p
    show valuesUnder k
        (if k' = k then (k, v) :: removeKey k ps else (k', v') :: setParam ps k v) = [v]
    by_cases hk : k' = k
    · rw [if_pos hk]
      show (if k = k then v :: valuesUnder k (removeKey k ps)
            else valuesUnder k (removeKey k ps)) = [v]
      rw [if_pos rfl, valuesUnder_removeKey]
    · rw [if_neg hk]
      show (if k' = k then v' :: valuesUnder k (setParam ps k v)
            else valuesUnder k (setParam ps k v)) = [v]
      rw [if_neg hk]; exact ih

theorem valuesUnder_appendParam (k v : Str) (ps : List (Str × Str)) :
    valuesUnder k (appendParam ps k v) = valuesUnder k ps ++ [v] := by
  unfold appendParam
  rw [valuesUnder_app]
  show _ ++ (if k = k then v :: valuesUnder k [] else valuesUnder k []) = _
  rw [if_pos rfl]
  rfl

theorem valuesUnder_arr_fold (k : Str) : ∀ (xs : List JsVal) (ps : List (Str × Str)),
    valuesUnder k (xs.foldl (fun acc item => appendParam acc k (jsStringOf item)) ps)
      = valuesUnder k ps ++ xs.map jsStringOf := by
  intro xs
  induction xs with
  | nil => intro ps; simp
  | cons x xs ih =>
    intro ps
    rw [List.foldl_cons, ih, valuesUnder_appendParam, List.map_cons,
      List.append_assoc, List.singleton_append]

/-- C7: null/absent query values contribute nothing; an array value
appends one stringified entry per element under its key; a plain-object
value yields exactly one entry carrying its JSON serialization; any other
scalar yields exactly one stringified entry; a later same-key scalar
entry overwrites, while arrays append instead of overwriting. -/
theorem c7_query_encoding (ps : List (Str × Str)) (k : Str) (xs ys : List JsVal)
    (fs : List (Str × JsVal)) (a b : JsVal) :
    applyQueryEntry ps k .vNull = ps ∧
    applyQueryEntry ps k .vUndef = ps ∧
    valuesUnder k (applyQueryEntry ps k (.vArr xs))
      = valuesUnder k ps ++ xs.map jsStringOf ∧
    valuesUnder k (applyQueryEntry ps k (.vObj fs)) = [(jsonStr (.vObj fs)).getD []] ∧
    (isScalarQ a = true → valuesUnder k (applyQueryEntry ps k a) = [jsStringOf a]) ∧
    (isScalarQ a = true → isScalarQ b = true →
      valuesUnder k (applyQuery ps [(k, a), (k, b)]) = [jsStringOf b]) ∧
    valuesUnder k (applyQuery ps [(k, .vArr xs), (k, .vArr ys)])
      = valuesUnder k ps ++ xs.map jsStringOf ++ ys.map jsStringOf := by
  refine ⟨rfl, rfl, valuesUnder_arr_fold k xs ps, valuesUnder_setParam k _ ps,
    fun ha => ?_, fun ha hb => ?_, ?_⟩
  · cases a with
    | vBool c => exact valuesUnder_setParam k _ ps
    | vNum n => exact valuesUnder_setParam k _ ps
    | vStr s => exact valuesUnder_setParam k _ ps
    | vUndef => simp [isScalarQ] at ha
    | vNull => simp [isScalarQ] at ha
    | vArr xs => simp [isScalarQ] at ha
    | vObj fs => simp [isScalarQ] at ha
  · show valuesUnder k (applyQueryEntry (applyQueryEntry ps k a) k b) = _
    cases b with
    | vBool c => exact valuesUnder_setParam k _ _
    | vNum n => exact valuesUnder_setParam k _ _
    | vStr s => exact valuesUnder_setParam k _ _
    | vUndef => simp [isScalarQ] at hb
    | vNull => simp [isScalarQ] at hb
    | vArr xs => simp [isScalarQ] at hb
    | vObj fs => simp [isScalarQ] at hb
  · show valuesUnder k (applyQueryEntry (applyQueryEntry ps k (.vArr xs)) k (.vArr ys)) = _
    rw [show applyQueryEntry (applyQueryEntry ps k (.vArr xs)) k (.vArr ys)
        = ys.foldl (fun acc item => appendParam acc k (jsStringOf item))
            (applyQueryEntry ps k (.vArr xs)) from rfl,
      valuesUnder_arr_fold,
      show applyQueryEntry ps k (.vArr xs)
        = xs.foldl (fun acc item => appendParam acc k (jsStringOf item)) ps from rfl,
      valuesUnder_arr_fold]

/-- C7 witness: a scalar entry written twice keeps only the later value,
and the other clauses hold at the same concrete inputs. -/
theorem c7_query_encoding_witness :
    (isScalarQ (.vNum 1) = true ∧ isScalarQ (.vNum 2) = true) ∧
    valuesUnder ("page".toList)
        (applyQuery [] [(("page".toList), .vNum 1), (("page".toList), .vNum 2)])
      = [jsStringOf (.vNum 2)] :=
  ⟨⟨rfl, rfl⟩,
    (c7_query_encoding [] ("page".toList) [] [] [] (.vNum 1) (.vNum 2)).2.2.2.2.2.1
      rfl rfl⟩

end OpenApiMcp
